import Mathlib

/-
Verification of the extension-manager core of LudvigEditor (src/ludvigeditor.py).

The development shallowly embeds the `ExtensionManifest` class (lines 52-130)
and the `ExtensionManager` class (lines 133-665) of the source file.

Modelling conventions:
* JSON documents (the results of Python's `json.load`) are the inductive `Json`.
  JSON numbers are modelled as integers; number-valued manifest fields play no
  role in any operation considered here.
* File-system and interpreter effects are abstracted into explicit inputs:
  `ExtensionManifest.load` receives the parse result of the manifest file as an
  `Option Json` (`none` = `open`/`json.load` raised), and every extension's
  entry-file behaviour (does the file exist, does its top-level code or its
  `activate`/`deactivate` entry point raise, ...) is an `ExtBehavior` supplied
  by an environment `Json → ExtBehavior` indexed by the extension's name.
* Python dicts are insertion-ordered association lists (`List (Json × α)`);
  the dict operations below implement lookup, in-place update, append and
  single-entry deletion exactly as Python dicts behave on duplicate-free lists.
* Qt signal emissions and the manifest/registry writes are recorded as an
  ordered event trace in the manager state; `print`/`editor.log` logging and
  the JavaScript injection into webviews (fire-and-forget, no observable
  result) are not modelled.
* Methods that Python would exit by raising an uncaught exception are given
  `Option` result types at the manifest level; inside `ExtensionManager` every
  public operation catches its exceptions and returns a `bool`, which is
  modelled directly.
-/

/-- A JSON value, as produced by `json.load`.  Python `None` is `Json.null`. -/
inductive Json where
  | null
  | bool (b : Bool)
  | str (s : String)
  | num (n : Int)
  | arr (xs : List Json)
  | obj (fields : List (String × Json))
deriving Repr

mutual

/-- Structural equality test for `Json` (Python `==` on decoded JSON values). -/
def Json.beq : Json → Json → Bool
  | .null, .null => true
  | .bool a, .bool b => a == b
  | .str a, .str b => a == b
  | .num a, .num b => a == b
  | .arr as, .arr bs => Json.beqList as bs
  | .obj as, .obj bs => Json.beqObj as bs
  | _, _ => false

/-- Elementwise `Json.beq` on arrays. -/
def Json.beqList : List Json → List Json → Bool
  | [], [] => true
  | a :: as, b :: bs => Json.beq a b && Json.beqList as bs
  | _, _ => false

/-- Elementwise `Json.beq` on object field lists. -/
def Json.beqObj : List (String × Json) → List (String × Json) → Bool
  | [], [] => true
  | (k, v) :: as, (k2, v2) :: bs => k == k2 && Json.beq v v2 && Json.beqObj as bs
  | _, _ => false

end

mutual

/-- Soundness of `Json.beq`. -/
def Json.eq_of_beq : ∀ {a b : Json}, Json.beq a b = true → a = b
  | .null, .null, _ => rfl
  | .bool _, .bool _, h => by simp [Json.beq] at h; simp [h]
  | .str _, .str _, h => by simp [Json.beq] at h; simp [h]
  | .num _, .num _, h => by simp [Json.beq] at h; simp [h]
  | .arr _, .arr _, h => by
      simp only [Json.beq] at h
      exact congrArg Json.arr (Json.eqList_of_beqList h)
  | .obj _, .obj _, h => by
      simp only [Json.beq] at h
      exact congrArg Json.obj (Json.eqObj_of_beqObj h)

/-- Soundness of `Json.beqList`. -/
def Json.eqList_of_beqList : ∀ {as bs : List Json}, Json.beqList as bs = true → as = bs
  | [], [], _ => rfl
  | _ :: _, _ :: _, h => by
      simp only [Json.beqList, Bool.and_eq_true] at h
      rw [Json.eq_of_beq h.1, Json.eqList_of_beqList h.2]

/-- Soundness of `Json.beqObj`. -/
def Json.eqObj_of_beqObj : ∀ {as bs : List (String × Json)}, Json.beqObj as bs = true → as = bs
  | [], [], _ => rfl
  | (_, _) :: _, (_, _) :: _, h => by
      simp only [Json.beqObj, Bool.and_eq_true] at h
      obtain ⟨⟨h1, h2⟩, h3⟩ := h
      rw [Json.eq_of_beq h2, Json.eqObj_of_beqObj h3, beq_iff_eq.mp h1]

end

mutual

/-- Reflexivity of `Json.beq`. -/
def Json.beq_refl : ∀ (a : Json), Json.beq a a = true
  | .null => rfl
  | .bool _ => by simp [Json.beq]
  | .str _ => by simp [Json.beq]
  | .num _ => by simp [Json.beq]
  | .arr as => by simp only [Json.beq]; exact Json.beqList_refl as
  | .obj as => by simp only [Json.beq]; exact Json.beqObj_refl as

/-- Reflexivity of `Json.beqList`. -/
def Json.beqList_refl : ∀ (as : List Json), Json.beqList as as = true
  | [] => rfl
  | a :: as => by
      simp only [Json.beqList, Bool.and_eq_true]
      exact ⟨Json.beq_refl a, Json.beqList_refl as⟩

/-- Reflexivity of `Json.beqObj`. -/
def Json.beqObj_refl : ∀ (as : List (String × Json)), Json.beqObj as as = true
  | [] => rfl
  | (_, v) :: as => by
      simp only [Json.beqObj, Bool.and_eq_true]
      exact ⟨⟨by simp, Json.beq_refl v⟩, Json.beqObj_refl as⟩

end

instance : DecidableEq Json := fun a b =>
  if h : Json.beq a b = true then isTrue (Json.eq_of_beq h)
  else isFalse (fun he => h (he ▸ Json.beq_refl a))

/-- Python truthiness of a decoded JSON value (`if not ext.enabled: ...`):
`None`, `False`, `0`, `''`, `[]` and `{}` are falsy, everything else truthy. -/
def Json.truthy : Json → Bool
  | .null => false
  | .bool b => b
  | .str s => !s.isEmpty
  | .num n => n != 0
  | .arr xs => !xs.isEmpty
  | .obj fs => !fs.isEmpty

/-- Python's `str.endswith`, on the character data of the strings
(`s.endswith(suffix)` holds iff `suffix` is a suffix of `s`). -/
def pyEndsWith (s suffix : String) : Bool :=
  decide (s.data.drop (s.data.length - suffix.data.length) = suffix.data)

/-- Python's `str.lower` on one character; only ASCII letters are mapped,
which matches CPython on the ASCII extension names considered here. -/
def pyCharLower (c : Char) : Char :=
  if 'A' ≤ c ∧ c ≤ 'Z' then Char.ofNat (c.toNat + 32) else c

/-- Python's `str.lower`, as a list of characters. -/
def pyLower (s : String) : List Char := s.data.map pyCharLower

/-- Python's `<=` on strings (lexicographic by code point), on character
lists; used to express the sortedness produced by `list.sort`. -/
def charListLe : List Char → List Char → Bool
  | [], _ => true
  | _ :: _, [] => false
  | a :: as, b :: bs => if a < b then true else if b < a then false else charListLe as bs

/-- `d.get(key, default)` on a decoded JSON object's field list. -/
def pyDictGet (fields : List (String × Json)) (key : String) (dflt : Json) : Json :=
  match fields.find? (fun p => p.1 == key) with
  | some p => p.2
  | none => dflt

/-- Lookup in a Python dict (`d[k]` / `d.get(k)`). -/
def dictGet? {α : Type} : List (Json × α) → Json → Option α
  | [], _ => none
  | p :: d, k => if p.1 = k then some p.2 else dictGet? d k

/-- Membership test in a Python dict (`k in d`). -/
def dictContains {α : Type} (d : List (Json × α)) (k : Json) : Bool :=
  (dictGet? d k).isSome

/-- Update/insert in a Python dict (`d[k] = v`): an existing key keeps its
position, a new key is appended at the end. -/
def dictInsert {α : Type} : List (Json × α) → Json → α → List (Json × α)
  | [], k, v => [(k, v)]
  | p :: d, k, v => if p.1 = k then (k, v) :: d else p :: dictInsert d k v

/-- Deletion from a Python dict (`del d[k]`): removes the first entry with the
given key (the only one, in a duplicate-free dict). -/
def dictRemove {α : Type} : List (Json × α) → Json → List (Json × α)
  | [], _ => []
  | p :: d, k => if p.1 = k then d else p :: dictRemove d k

/-- Number of entries with the given key; `0` or `1` in a real Python dict. -/
def dictCount {α : Type} : List (Json × α) → Json → Nat
  | [], _ => 0
  | p :: d, k => (if p.1 = k then 1 else 0) + dictCount d k

/-- Duplicate-freeness of the keys of an association list; an invariant of
every list that models a Python dict. -/
def dictNoDup {α : Type} : List (Json × α) → Bool
  | [] => true
  | p :: d => !dictContains d p.1 && dictNoDup d

/-- The fields of `ExtensionManifest` (src/ludvigeditor.py:52-84).  Every field
assigned by `ExtensionManifest.load` is kept with the JSON value it received;
`type` is the derived extension kind ("js" / "python" / "unknown") computed
from `main`.  The path attributes (`manifest_path`, `extension_dir`) are not
modelled: all file access goes through the abstract environment instead. -/
structure ExtensionManifest where
  name : Json
  version : Json
  description : Json
  author : Json
  main : Json
  icon : Json
  enabled : Json
  dependencies : Json
  contributes : Json
  activation_events : Json
  type : String
deriving Repr, DecidableEq

/-- Embedding of `ExtensionManifest.load` (src/ludvigeditor.py:57-84).
`parsed = none` models `open`/`json.load` raising (the `except` branch
substitutes `data = {}` and logs); `some d` models a successful parse of the
manifest file as document `d`.  The result is `none` exactly when the Python
method would raise *after* its `try` block: `data.get` on a document that is
not an object, or `self.main.endswith` on a non-string `main`. -/
def ExtensionManifest.load (parsed : Option Json) : Option ExtensionManifest :=
  let data? : Option (List (String × Json)) :=
    match parsed with
    | none => some []
    | some (Json.obj fields) => some fields
    | some _ => none
  match data? with
  | none => none
  | some data =>
    match pyDictGet data "main" (Json.str "main.js") with
    | Json.str main_s =>
      some {
        name := pyDictGet data "name" (Json.str "unknown")
        version := pyDictGet data "version" (Json.str "1.0.0")
        description := pyDictGet data "description" (Json.str "")
        author := pyDictGet data "author" (Json.str "Unknown")
        main := Json.str main_s
        icon := pyDictGet data "icon" Json.null
        enabled := pyDictGet data "enabled" (Json.bool true)
        dependencies := pyDictGet data "dependencies" (Json.obj [])
        contributes := pyDictGet data "contributes" (Json.obj [])
        activation_events := pyDictGet data "activationEvents" (Json.arr [])
        type := if pyEndsWith main_s ".js" then "js"
                else if pyEndsWith main_s ".py" then "python"
                else "unknown" }
    | _ => none

/-- Embedding of `ExtensionManifest.save` (src/ludvigeditor.py:86-107): the
JSON document `json.dump` writes back to the manifest file.  The write itself
(and its caught IO failure, which only affects the returned bool) is outside
the model. -/
def ExtensionManifest.save (m : ExtensionManifest) : Json :=
  Json.obj [("name", m.name), ("version", m.version), ("description", m.description),
    ("author", m.author), ("main", m.main), ("icon", m.icon), ("enabled", m.enabled),
    ("dependencies", m.dependencies), ("contributes", m.contributes),
    ("activationEvents", m.activation_events)]

/-- Embedding of `ExtensionManifest.to_dict` (src/ludvigeditor.py:119-130) as
the field list of the produced dict.  The `path` key (the unmodelled
`extension_dir`) is omitted; no claim concerns it. -/
def ExtensionManifest.to_dict (m : ExtensionManifest) : List (String × Json) :=
  [("name", m.name), ("version", m.version), ("description", m.description),
   ("author", m.author), ("enabled", m.enabled), ("type", Json.str m.type),
   ("main", m.main)]

/-- Behaviour of the file system and of the third-party code behind one
extension: the part of the world that `load_extension`/`unload_extension`
interact with but do not control.  Supplied per extension name by an
environment `Json → ExtBehavior`. -/
structure ExtBehavior where
  /-- `os.path.exists(ext.get_main_path())` -/
  mainExists : Bool
  /-- reading the JS entry file raises -/
  readRaises : Bool
  /-- text of the JS entry file -/
  source : String
  /-- `importlib.util.spec_from_file_location` returns `None` -/
  specIsNone : Bool
  /-- `spec.loader.exec_module(module)` raises -/
  execRaises : Bool
  /-- the executed module has an `activate` attribute -/
  hasActivate : Bool
  /-- `module.activate(api)` raises -/
  activateRaises : Bool
  /-- the executed module has a `deactivate` attribute -/
  hasDeactivate : Bool
  /-- `module.deactivate()` raises -/
  deactivateRaises : Bool
deriving Repr, DecidableEq

/-- One observable emission of the `ExtensionManager`: its five Qt signals
(src/ludvigeditor.py:135-139) plus the two persistence calls
(`ExtensionManifest.save` from `toggle_extension`, and `save_manifest`). -/
inductive Event where
  | extension_loaded (name : Json)
  | extension_unloaded (name : Json)
  | extension_error (name : Json) (msg : String)
  | extension_installed (name : Json)
  | extension_uninstalled (name : Json)
  | manifest_saved (name : Json)
  | registry_saved
deriving Repr, DecidableEq

/-- The mutable state of `ExtensionManager` (src/ludvigeditor.py:141-150):
its four dicts, plus the ordered trace of events it has emitted. -/
structure ExtensionManager where
  extensions : List (Json × ExtensionManifest)
  loaded_extensions : List (Json × ExtensionManifest)
  python_extensions : List (Json × ExtBehavior)
  js_extensions : List (Json × String)
  events : List Event
deriving Repr, DecidableEq

/-- Embedding of `ExtensionManager._load_js_extension`
(src/ludvigeditor.py:430-456).  The injection of the wrapped source into the
open webviews (lines 444-446) is fire-and-forget and not modelled.  Both
failure modes (`main` file missing; reading it raises, caught by the local
`except` which logs and returns `False`) leave the state unchanged. -/
def ExtensionManager._load_js_extension (env : Json → ExtBehavior)
    (s : ExtensionManager) (ext : ExtensionManifest) : Bool × ExtensionManager :=
  let b := env ext.name
  if !b.mainExists then (false, s)
  else if b.readRaises then (false, s)
  else
    (true, { s with js_extensions := dictInsert s.js_extensions ext.name b.source
                  , loaded_extensions := dictInsert s.loaded_extensions ext.name ext
                  , events := s.events ++ [Event.extension_loaded ext.name] })

/-- Embedding of `ExtensionManager._load_python_extension`
(src/ludvigeditor.py:485-529).  Any exception raised while creating, executing
or activating the module is caught by the method's own `except`, which logs
the error and returns `False` without touching the dicts — and, notably,
without emitting `extension_error`. -/
def ExtensionManager._load_python_extension (env : Json → ExtBehavior)
    (s : ExtensionManager) (ext : ExtensionManifest) : Bool × ExtensionManager :=
  let b := env ext.name
  if !b.mainExists then (false, s)
  else if b.specIsNone then (false, s)
  else if b.execRaises then (false, s)
  else if b.hasActivate && b.activateRaises then (false, s)
  else
    (true, { s with python_extensions := dictInsert s.python_extensions ext.name b
                  , loaded_extensions := dictInsert s.loaded_extensions ext.name ext
                  , events := s.events ++ [Event.extension_loaded ext.name] })

/-- Embedding of `ExtensionManager.load_extension` (src/ludvigeditor.py:399-428).
The outer `try`/`except` of the method (which would log, emit
`extension_error` and return `False`) has no branch here: both kind-specific
helpers catch their own exceptions and return `False`, so for every failure
mode in the model no exception reaches the outer handler. -/
def ExtensionManager.load_extension (env : Json → ExtBehavior)
    (s : ExtensionManager) (name : Json) : Bool × ExtensionManager :=
  match dictGet? s.extensions name with
  | none => (false, s)
  | some ext =>
    if !ext.enabled.truthy then (false, s)
    else if dictContains s.loaded_extensions name then (true, s)
    else if ext.type = "js" then ExtensionManager._load_js_extension env s ext
    else if ext.type = "python" then ExtensionManager._load_python_extension env s ext
    else (false, s)

/-- Shared tail of `ExtensionManager.unload_extension`
(src/ludvigeditor.py:561-566): remove the loaded record, emit
`extension_unloaded`, return `True`. -/
def ExtensionManager.unload_tail (s : ExtensionManager) (name : Json) :
    Bool × ExtensionManager :=
  (true, { s with loaded_extensions := dictRemove s.loaded_extensions name
                , events := s.events ++ [Event.extension_unloaded name] })

/-- Embedding of `ExtensionManager.unload_extension`
(src/ludvigeditor.py:531-570).  The removal JavaScript run in each webview for
JS extensions is not modelled.  If a Python module's `deactivate` raises, the
method's `except` catches it, logs, and returns `False` — before any `del`
has run, so the whole state is left unchanged. -/
def ExtensionManager.unload_extension (s : ExtensionManager) (name : Json) :
    Bool × ExtensionManager :=
  match dictGet? s.loaded_extensions name with
  | none => (false, s)
  | some ext =>
    if ext.type = "js" then
      ExtensionManager.unload_tail
        { s with js_extensions := dictRemove s.js_extensions name } name
    else if ext.type = "python" then
      match dictGet? s.python_extensions name with
      | none => ExtensionManager.unload_tail s name
      | some m =>
        if m.hasDeactivate && m.deactivateRaises then (false, s)
        else ExtensionManager.unload_tail
          { s with python_extensions := dictRemove s.python_extensions name } name
    else ExtensionManager.unload_tail s name

/-- Embedding of `ExtensionManager.toggle_extension`
(src/ludvigeditor.py:572-590).  `ext.enabled = not ext.enabled` stores a real
Python bool; `ext.save()` persists the manifest (recorded as
`Event.manifest_saved`, its ignored bool result and IO are abstract) before
the follow-up load/unload runs; the flag is never rolled back. -/
def ExtensionManager.toggle_extension (env : Json → ExtBehavior)
    (s : ExtensionManager) (name : Json) : Bool × ExtensionManager :=
  match dictGet? s.extensions name with
  | none => (false, s)
  | some ext =>
    let ext2 := { ext with enabled := Json.bool (!ext.enabled.truthy) }
    let s1 : ExtensionManager :=
      { s with extensions := dictInsert s.extensions name ext2
             , events := s.events ++ [Event.manifest_saved name] }
    if ext2.enabled.truthy then ExtensionManager.load_extension env s1 name
    else ExtensionManager.unload_extension s1 name

/-- Embedding of `ExtensionManager.uninstall_extension`
(src/ludvigeditor.py:592-627).  `shutil.rmtree(..., ignore_errors=True)` is a
file-system effect outside the model and cannot raise; none of the remaining
statements can raise either (the registered key is present, `save_manifest`
catches its own errors), so the `except` branch returning `False` is
unreachable for a registered name. -/
def ExtensionManager.uninstall_extension (s : ExtensionManager) (name : Json) :
    Bool × ExtensionManager :=
  match dictGet? s.extensions name with
  | none => (false, s)
  | some _ =>
    let s1 := if dictContains s.loaded_extensions name
              then (ExtensionManager.unload_extension s name).2 else s
    (true, { s1 with extensions := dictRemove s1.extensions name
                   , loaded_extensions := dictRemove s1.loaded_extensions name
                   , js_extensions := dictRemove s1.js_extensions name
                   , python_extensions := dictRemove s1.python_extensions name
                   , events := s1.events ++ [Event.registry_saved,
                                             Event.extension_uninstalled name] })

/-- Embedding of `ExtensionManager.reload_extension`
(src/ludvigeditor.py:652-665). -/
def ExtensionManager.reload_extension (env : Json → ExtBehavior)
    (s : ExtensionManager) (name : Json) : Bool × ExtensionManager :=
  match dictGet? s.extensions name with
  | none => (false, s)
  | some _ =>
    let was_loaded := dictContains s.loaded_extensions name
    let s1 := if was_loaded then (ExtensionManager.unload_extension s name).2 else s
    match dictGet? s1.extensions name with
    | some ext2 =>
      if ext2.enabled.truthy then ExtensionManager.load_extension env s1 name
      else (true, s1)
    | none => (false, s1)

/-- Shared registration tail of the three installers
(`_create_js_extension` lines 299-308, `_create_python_extension` lines
344-353, `install_from_folder` lines 383-392): register the manifest under
its name, persist the registry, load if enabled, emit `extension_installed`,
return `True`.  The preceding file materialisation is outside the model. -/
def ExtensionManager.install_register (env : Json → ExtBehavior)
    (s : ExtensionManager) (ext : ExtensionManifest) : Bool × ExtensionManager :=
  let s1 : ExtensionManager :=
    { s with extensions := dictInsert s.extensions ext.name ext
           , events := s.events ++ [Event.registry_saved] }
  let s2 := if ext.enabled.truthy
            then (ExtensionManager.load_extension env s1 ext.name).2 else s1
  (true, { s2 with events := s2.events ++ [Event.extension_installed ext.name] })

/-- The `name` field of one entry of `get_extension_list`'s result. -/
def entryName (e : Json) : Option Json :=
  match e with
  | Json.obj fields => some (pyDictGet fields "name" Json.null)
  | _ => none

/-- Sort key of `get_extension_list` (`key=lambda x: x['name'].lower()`),
defined when the entry's `name` is a string — otherwise Python's sort would
raise `AttributeError`. -/
def entrySortKey (e : Json) : Option (List Char) :=
  match entryName e with
  | some (Json.str s) => some (pyLower s)
  | _ => none

/-- Total version of `entrySortKey` used inside the sort; the default is
never reached on lists that pass the string-name guard. -/
def entrySortKeyD (e : Json) : List Char := (entrySortKey e).getD []

/-- Embedding of `ExtensionManager.get_extension_list`
(src/ludvigeditor.py:629-640): one dict per registered extension
(`to_dict()` plus a `loaded` flag keyed by dict membership and a constant
`has_errors`), sorted by lowercased name.  `result.sort` raising on a
non-string name is modelled by returning `none` in that case. -/
def ExtensionManager.get_extension_list (s : ExtensionManager) : Option (List Json) :=
  let result := s.extensions.map (fun p => Json.obj (p.2.to_dict ++
    [("loaded", Json.bool (dictContains s.loaded_extensions p.1)),
     ("has_errors", Json.bool false)]))
  if result.all (fun e => (entrySortKey e).isSome) then
    some (List.insertionSort
      (fun a b => charListLe (entrySortKeyD a) (entrySortKeyD b) = true) result)
  else none

/-- Well-formedness of the `extensions` dict: every manifest is registered
under its own `name`.  Established by every registration site
(`self.extensions[ext.name] = ext`) and touched by no other write. -/
def namesConsistent (d : List (Json × ExtensionManifest)) : Bool :=
  d.all (fun p => decide (p.2.name = p.1))

/-- The invariant of claim C10: every loaded extension is registered. -/
def loadedRegistered (s : ExtensionManager) : Bool :=
  s.loaded_extensions.all (fun p => dictContains s.extensions p.1)

/-- Full well-formedness of a manager state: registration keys match manifest
names, loaded extensions are registered, and all four dicts are genuine
Python dicts (duplicate-free keys). -/
def ExtensionManager.Wf (s : ExtensionManager) : Prop :=
  namesConsistent s.extensions = true ∧
  loadedRegistered s = true ∧
  dictNoDup s.extensions = true ∧
  dictNoDup s.loaded_extensions = true ∧
  dictNoDup s.js_extensions = true ∧
  dictNoDup s.python_extensions = true

instance (s : ExtensionManager) : Decidable s.Wf := by
  unfold ExtensionManager.Wf; infer_instance

/-- Totality of `charListLe`. -/
def charListLe_total : ∀ (as bs : List Char),
    charListLe as bs = true ∨ charListLe bs as = true
  | [], _ => Or.inl rfl
  | _ :: _, [] => Or.inr rfl
  | a :: as, b :: bs => by
      rcases lt_trichotomy a b with h | h | h
      · left; simp [charListLe, h]
      · subst h
        rcases charListLe_total as bs with ih | ih
        · left; simp [charListLe, lt_irrefl, ih]
        · right; simp [charListLe, lt_irrefl, ih]
      · right; simp [charListLe, h]

/-- Transitivity of `charListLe`. -/
def charListLe_trans : ∀ (as bs cs : List Char),
    charListLe as bs = true → charListLe bs cs = true → charListLe as cs = true
  | [], _, _, _, _ => rfl
  | _ :: _, [], _, h1, _ => by simp [charListLe] at h1
  | _ :: _, _ :: _, [], _, h2 => by simp [charListLe] at h2
  | a :: as, b :: bs, c :: cs, h1, h2 => by
      simp only [charListLe] at h1 h2 ⊢
      rcases lt_trichotomy a b with hab | hab | hab
      · rcases lt_trichotomy b c with hbc | hbc | hbc
        · simp [lt_trans hab hbc]
        · subst hbc; simp [hab]
        · have hn : ¬ b < c := asymm hbc
          simp [hn, hbc] at h2
      · subst hab
        rcases lt_trichotomy a c with hac | hac | hac
        · simp [hac]
        · subst hac
          have h1t : charListLe as bs = true := by simpa [lt_irrefl] using h1
          have h2t : charListLe bs cs = true := by simpa [lt_irrefl] using h2
          simp [lt_irrefl, charListLe_trans as bs cs h1t h2t]
        · have hn : ¬ a < c := asymm hac
          simp [hn, hac] at h2
      · have hn : ¬ a < b := asymm hab
        simp [hn, hab] at h1

instance : IsTotal Json (fun a b => charListLe (entrySortKeyD a) (entrySortKeyD b) = true) :=
  ⟨fun _ _ => charListLe_total _ _⟩

instance : IsTrans Json (fun a b => charListLe (entrySortKeyD a) (entrySortKeyD b) = true) :=
  ⟨fun _ _ _ h1 h2 => charListLe_trans _ _ _ h1 h2⟩

/-- Recognizer for `extension_error` emissions, used to state that a trace
contains none. -/
def isErrorEvent : Event → Bool
  | .extension_error _ _ => true
  | _ => false

/-- Test fixture: a manifest as `ExtensionManifest.load` would build it from
a document with the given `name`, `enabled` and `main` and no other keys. -/
def mkManifest (n : String) (en : Bool) (main_s : String) : ExtensionManifest :=
  { name := Json.str n, version := Json.str "1.0.0", description := Json.str "",
    author := Json.str "Unknown", main := Json.str main_s, icon := Json.null,
    enabled := Json.bool en, dependencies := Json.obj [], contributes := Json.obj [],
    activation_events := Json.arr [],
    type := if pyEndsWith main_s ".js" then "js"
            else if pyEndsWith main_s ".py" then "python"
            else "unknown" }

/-- Test fixture: a registered but disabled JS extension. -/
def disExt : ExtensionManifest := mkManifest "dis" false "main.js"

/-- Test fixture: an enabled Python extension. -/
def pyExt : ExtensionManifest := mkManifest "pyext" true "main.py"

/-- Test fixture: the same Python extension, disabled. -/
def pyExtDis : ExtensionManifest := mkManifest "pyext" false "main.py"

/-- Test fixture: an enabled JS extension. -/
def jsExt : ExtensionManifest := mkManifest "hello" true "hello.js"

/-- Test fixture: an enabled Python extension with a lowercase name. -/
def alphaExt : ExtensionManifest := mkManifest "alpha" true "a.py"

/-- Test fixture: an enabled JS extension with a capitalized name. -/
def betaExt : ExtensionManifest := mkManifest "Beta" true "b.js"

/-- Test fixture: a well-behaved extension environment. -/
def behOk : ExtBehavior :=
  { mainExists := true, readRaises := false, source := "console.log(1)",
    specIsNone := false, execRaises := false, hasActivate := false,
    activateRaises := false, hasDeactivate := false, deactivateRaises := false }

/-- Test fixture: a module whose `activate` raises. -/
def behActRaises : ExtBehavior := { behOk with hasActivate := true, activateRaises := true }

/-- Test fixture: a module whose `deactivate` raises. -/
def behDeactRaises : ExtBehavior := { behOk with hasDeactivate := true, deactivateRaises := true }

/-- Test fixture: every extension behaves well. -/
def envOk : Json → ExtBehavior := fun _ => behOk

/-- Test fixture: every extension's `activate` raises. -/
def envActRaises : Json → ExtBehavior := fun _ => behActRaises

/-- Test fixture: a manager with no extensions. -/
def emptyMgr : ExtensionManager :=
  { extensions := [], loaded_extensions := [], python_extensions := [],
    js_extensions := [], events := [] }

/-- Test fixture: only `disExt` is registered. -/
def sDis : ExtensionManager := { emptyMgr with extensions := [(Json.str "dis", disExt)] }

/-- Test fixture: only `pyExt` is registered, nothing loaded. -/
def sPy : ExtensionManager := { emptyMgr with extensions := [(Json.str "pyext", pyExt)] }

/-- Test fixture: only `pyExtDis` is registered, nothing loaded. -/
def sPyDis : ExtensionManager := { emptyMgr with extensions := [(Json.str "pyext", pyExtDis)] }

/-- Test fixture: `pyExt` is registered and loaded, with a module whose
`deactivate` raises. -/
def sLoadedPy : ExtensionManager :=
  { extensions := [(Json.str "pyext", pyExt)],
    loaded_extensions := [(Json.str "pyext", pyExt)],
    python_extensions := [(Json.str "pyext", behDeactRaises)],
    js_extensions := [], events := [] }

/-- Test fixture: only `jsExt` is registered, nothing loaded. -/
def sJs : ExtensionManager := { emptyMgr with extensions := [(Json.str "hello", jsExt)] }

/-- Test fixture: the state reached by loading `jsExt` in `sJs` under `envOk`. -/
def sJsLoaded : ExtensionManager :=
  { extensions := [(Json.str "hello", jsExt)],
    loaded_extensions := [(Json.str "hello", jsExt)],
    python_extensions := [],
    js_extensions := [(Json.str "hello", "console.log(1)")],
    events := [Event.extension_loaded (Json.str "hello")] }

/-- Test fixture: two registered extensions whose registration order differs
from their name order; only `alphaExt` is loaded. -/
def sTwo : ExtensionManager :=
  { extensions := [(Json.str "Beta", betaExt), (Json.str "alpha", alphaExt)],
    loaded_extensions := [(Json.str "alpha", alphaExt)],
    python_extensions := [(Json.str "alpha", behOk)],
    js_extensions := [], events := [] }

theorem dictGet?_insert_self {α : Type} (d : List (Json × α)) (k : Json) (v : α) :
    dictGet? (dictInsert d k v) k = some v := by
  induction d with
  | nil => simp [dictInsert, dictGet?]
  | cons p d ih =>
    by_cases h : p.1 = k
    · simp [dictInsert, h, dictGet?]
    · simp [dictInsert, h, dictGet?, ih]

theorem dictGet?_insert_ne {α : Type} (d : List (Json × α)) {k k' : Json} (v : α)
    (h : k' ≠ k) : dictGet? (dictInsert d k v) k' = dictGet? d k' := by
  have hk : ¬ k = k' := fun he => h he.symm
  induction d with
  | nil => simp [dictInsert, dictGet?, hk]
  | cons p d ih =>
    by_cases hp : p.1 = k
    · simp [dictInsert, hp, dictGet?, hk]
    · simp [dictInsert, hp, dictGet?, ih]

theorem dictContains_insert {α : Type} (d : List (Json × α)) (k k' : Json) (v : α) :
    dictContains (dictInsert d k v) k' = (dictContains d k' || decide (k' = k)) := by
  by_cases h : k' = k
  · subst h
    simp [dictContains, dictGet?_insert_self]
  · simp [dictContains, dictGet?_insert_ne d v h, h]

theorem dictGet?_mem {α : Type} {d : List (Json × α)} {k : Json} {v : α}
    (h : dictGet? d k = some v) : (k, v) ∈ d := by
  induction d with
  | nil => simp [dictGet?] at h
  | cons p d ih =>
    by_cases hp : p.1 = k
    · simp only [dictGet?, if_pos hp] at h
      obtain rfl : p.2 = v := Option.some.inj h
      subst hp
      exact List.mem_cons_self _ _
    · simp only [dictGet?, if_neg hp] at h
      exact List.mem_cons_of_mem _ (ih h)

theorem contains_of_mem {α : Type} {d : List (Json × α)} {p : Json × α}
    (h : p ∈ d) : dictContains d p.1 = true := by
  induction d with
  | nil => simp at h
  | cons q d ih =>
    rcases List.mem_cons.mp h with h | h
    · subst h; simp [dictContains, dictGet?]
    · by_cases hq : q.1 = p.1
      · simp [dictContains, dictGet?, hq]
      · simpa [dictContains, dictGet?, hq] using ih h

theorem mem_dictInsert {α : Type} {d : List (Json × α)} {k : Json} {v : α}
    {p : Json × α} (h : p ∈ dictInsert d k v) : p = (k, v) ∨ p ∈ d := by
  induction d with
  | nil => simp [dictInsert] at h; simp [h]
  | cons q d ih =>
    by_cases hq : q.1 = k
    · simp only [dictInsert, if_pos hq] at h
      rcases List.mem_cons.mp h with h | h
      · exact Or.inl h
      · exact Or.inr (List.mem_cons_of_mem _ h)
    · simp only [dictInsert, if_neg hq] at h
      rcases List.mem_cons.mp h with h | h
      · exact Or.inr (h ▸ List.mem_cons_self _ _)
      · rcases ih h with h | h
        · exact Or.inl h
        · exact Or.inr (List.mem_cons_of_mem _ h)

theorem mem_dictRemove {α : Type} {d : List (Json × α)} {k : Json}
    {p : Json × α} (h : p ∈ dictRemove d k) : p ∈ d := by
  induction d with
  | nil => simp [dictRemove] at h
  | cons q d ih =>
    by_cases hq : q.1 = k
    · simp only [dictRemove, if_pos hq] at h
      exact List.mem_cons_of_mem _ h
    · simp only [dictRemove, if_neg hq] at h
      rcases List.mem_cons.mp h with h | h
      · exact h ▸ List.mem_cons_self _ _
      · exact List.mem_cons_of_mem _ (ih h)

theorem dictGet?_remove_ne {α : Type} (d : List (Json × α)) {k k' : Json}
    (h : k' ≠ k) : dictGet? (dictRemove d k) k' = dictGet? d k' := by
  have hk : ¬ k = k' := fun he => h he.symm
  induction d with
  | nil => simp [dictRemove]
  | cons p d ih =>
    by_cases hp : p.1 = k
    · simp [dictRemove, hp, dictGet?, hk]
    · simp [dictRemove, hp, dictGet?, ih]

theorem dictContains_remove_ne {α : Type} (d : List (Json × α)) {k k' : Json}
    (h : k' ≠ k) : dictContains (dictRemove d k) k' = dictContains d k' := by
  simp [dictContains, dictGet?_remove_ne d h]

theorem dictCount_eq_zero {α : Type} {d : List (Json × α)} {k : Json}
    (h : dictContains d k = false) : dictCount d k = 0 := by
  induction d with
  | nil => simp [dictCount]
  | cons p d ih =>
    by_cases hp : p.1 = k
    · simp [dictContains, dictGet?, hp] at h
    · simp only [dictContains, dictGet?, if_neg hp] at h
      simp [dictCount, hp, ih h]

theorem dictCount_pos {α : Type} {d : List (Json × α)} {k : Json}
    (h : dictContains d k = true) : 1 ≤ dictCount d k := by
  induction d with
  | nil => simp [dictContains, dictGet?] at h
  | cons p d ih =>
    by_cases hp : p.1 = k
    · simp [dictCount, hp]
    · simp only [dictContains, dictGet?, if_neg hp] at h
      simpa [dictCount, hp] using ih h

theorem dictCount_insert_self {α : Type} (d : List (Json × α)) (k : Json) (v : α) :
    dictCount (dictInsert d k v) k =
      if dictContains d k then dictCount d k else dictCount d k + 1 := by
  induction d with
  | nil => simp [dictInsert, dictCount, dictContains, dictGet?]
  | cons p d ih =>
    by_cases hp : p.1 = k
    · simp [dictInsert, hp, dictCount, dictContains, dictGet?]
    · simp only [dictInsert, if_neg hp, dictCount, ih, dictContains, dictGet?]
      by_cases hc : dictContains d k
      · simp [dictContains] at hc
        simp [hp, hc, dictContains]
      · simp only [dictContains] at hc
        simp [hp, hc, dictContains]

theorem dictNoDup_insert {α : Type} {d : List (Json × α)} (k : Json) (v : α)
    (h : dictNoDup d = true) : dictNoDup (dictInsert d k v) = true := by
  induction d with
  | nil => simp [dictInsert, dictNoDup, dictContains, dictGet?]
  | cons p d ih =>
    simp only [dictNoDup, Bool.and_eq_true, Bool.not_eq_true'] at h
    by_cases hp : p.1 = k
    · subst hp
      simp only [dictInsert, if_pos rfl, dictNoDup, Bool.and_eq_true, Bool.not_eq_true']
      exact h
    · simp only [dictInsert, if_neg hp, dictNoDup, Bool.and_eq_true, Bool.not_eq_true']
      refine ⟨?_, ih h.2⟩
      rw [dictContains_insert]
      simp [h.1, fun he : p.1 = k => hp he]

theorem dictNoDup_remove {α : Type} {d : List (Json × α)} (k : Json)
    (h : dictNoDup d = true) : dictNoDup (dictRemove d k) = true := by
  induction d with
  | nil => simpa [dictRemove] using h
  | cons p d ih =>
    simp only [dictNoDup, Bool.and_eq_true, Bool.not_eq_true'] at h
    by_cases hp : p.1 = k
    · simpa [dictRemove, hp] using h.2
    · simp only [dictRemove, if_neg hp, dictNoDup, Bool.and_eq_true, Bool.not_eq_true']
      refine ⟨?_, ih h.2⟩
      by_cases he : p.1 = k
      · exact absurd he hp
      · rw [dictContains_remove_ne d he]
        exact h.1

theorem dictContains_remove_self {α : Type} {d : List (Json × α)} {k : Json}
    (h : dictNoDup d = true) : dictContains (dictRemove d k) k = false := by
  induction d with
  | nil => simp [dictRemove, dictContains, dictGet?]
  | cons p d ih =>
    simp only [dictNoDup, Bool.and_eq_true, Bool.not_eq_true'] at h
    by_cases hp : p.1 = k
    · subst hp
      simpa [dictRemove] using h.1
    · simp only [dictRemove, if_neg hp, dictContains, dictGet?, if_neg hp]
      exact ih h.2

theorem load_js_extensions_eq (env : Json → ExtBehavior) (s : ExtensionManager)
    (ext : ExtensionManifest) :
    (ExtensionManager._load_js_extension env s ext).2.extensions = s.extensions := by
  simp only [ExtensionManager._load_js_extension]
  split
  · rfl
  split
  · rfl
  · rfl

theorem load_python_extensions_eq (env : Json → ExtBehavior) (s : ExtensionManager)
    (ext : ExtensionManifest) :
    (ExtensionManager._load_python_extension env s ext).2.extensions = s.extensions := by
  simp only [ExtensionManager._load_python_extension]
  split
  · rfl
  split
  · rfl
  split
  · rfl
  split
  · rfl
  · rfl

theorem load_extensions_eq (env : Json → ExtBehavior) (s : ExtensionManager)
    (name : Json) :
    (ExtensionManager.load_extension env s name).2.extensions = s.extensions := by
  cases hdg : dictGet? s.extensions name with
  | none => simp [ExtensionManager.load_extension, hdg]
  | some ext =>
    simp only [ExtensionManager.load_extension, hdg]
    split
    · rfl
    split
    · rfl
    split
    · exact load_js_extensions_eq env s ext
    split
    · exact load_python_extensions_eq env s ext
    · rfl

theorem unload_extensions_eq (s : ExtensionManager) (name : Json) :
    (ExtensionManager.unload_extension s name).2.extensions = s.extensions := by
  cases hdg : dictGet? s.loaded_extensions name with
  | none => simp [ExtensionManager.unload_extension, hdg]
  | some ext =>
    simp only [ExtensionManager.unload_extension, hdg]
    split
    · rfl
    split
    · cases hpg : dictGet? s.python_extensions name with
      | none => simp [hpg, ExtensionManager.unload_tail]
      | some m =>
        simp only [hpg]
        split
        · rfl
        · rfl
    · rfl

theorem wf_load_js (env : Json → ExtBehavior) (s : ExtensionManager)
    (ext : ExtensionManifest) (hc : dictContains s.extensions ext.name = true)
    (h : s.Wf) : (ExtensionManager._load_js_extension env s ext).2.Wf := by
  obtain ⟨h1, h2, h3, h4, h5, h6⟩ := h
  simp only [ExtensionManager._load_js_extension]
  split
  · exact ⟨h1, h2, h3, h4, h5, h6⟩
  split
  · exact ⟨h1, h2, h3, h4, h5, h6⟩
  refine ⟨h1, ?_, h3, dictNoDup_insert _ _ h4, dictNoDup_insert _ _ h5, h6⟩
  simp only [loadedRegistered, List.all_eq_true]
  intro p hp
  rcases mem_dictInsert hp with rfl | hp'
  · exact hc
  · exact List.all_eq_true.mp h2 p hp'

theorem wf_load_python (env : Json → ExtBehavior) (s : ExtensionManager)
    (ext : ExtensionManifest) (hc : dictContains s.extensions ext.name = true)
    (h : s.Wf) : (ExtensionManager._load_python_extension env s ext).2.Wf := by
  obtain ⟨h1, h2, h3, h4, h5, h6⟩ := h
  simp only [ExtensionManager._load_python_extension]
  split
  · exact ⟨h1, h2, h3, h4, h5, h6⟩
  split
  · exact ⟨h1, h2, h3, h4, h5, h6⟩
  split
  · exact ⟨h1, h2, h3, h4, h5, h6⟩
  split
  · exact ⟨h1, h2, h3, h4, h5, h6⟩
  refine ⟨h1, ?_, h3, dictNoDup_insert _ _ h4, h5, dictNoDup_insert _ _ h6⟩
  simp only [loadedRegistered, List.all_eq_true]
  intro p hp
  rcases mem_dictInsert hp with rfl | hp'
  · exact hc
  · exact List.all_eq_true.mp h2 p hp'

theorem wf_load (env : Json → ExtBehavior) (s : ExtensionManager) (name : Json)
    (h : s.Wf) : (ExtensionManager.load_extension env s name).2.Wf := by
  cases hdg : dictGet? s.extensions name with
  | none => simp only [ExtensionManager.load_extension, hdg]; exact h
  | some ext =>
    have hname : ext.name = name :=
      of_decide_eq_true (List.all_eq_true.mp h.1 _ (dictGet?_mem hdg))
    have hc : dictContains s.extensions ext.name = true := by
      simp [dictContains, hname, hdg]
    simp only [ExtensionManager.load_extension, hdg]
    split
    · exact h
    split
    · exact h
    split
    · exact wf_load_js env s ext hc h
    split
    · exact wf_load_python env s ext hc h
    · exact h

theorem wf_unload_tail (s : ExtensionManager) (name : Json)
    (h : s.Wf) : (ExtensionManager.unload_tail s name).2.Wf := by
  obtain ⟨h1, h2, h3, h4, h5, h6⟩ := h
  refine ⟨h1, ?_, h3, dictNoDup_remove _ h4, h5, h6⟩
  simp only [loadedRegistered, List.all_eq_true]
  intro p hp
  exact List.all_eq_true.mp h2 p (mem_dictRemove hp)

theorem wf_unload (s : ExtensionManager) (name : Json)
    (h : s.Wf) : (ExtensionManager.unload_extension s name).2.Wf := by
  obtain ⟨h1, h2, h3, h4, h5, h6⟩ := h
  cases hdg : dictGet? s.loaded_extensions name with
  | none => simp only [ExtensionManager.unload_extension, hdg]; exact ⟨h1, h2, h3, h4, h5, h6⟩
  | some ext =>
    simp only [ExtensionManager.unload_extension, hdg]
    split
    · exact wf_unload_tail _ name ⟨h1, h2, h3, h4, dictNoDup_remove _ h5, h6⟩
    split
    · cases hpg : dictGet? s.python_extensions name with
      | none =>
        simp only [hpg]
        exact wf_unload_tail _ name ⟨h1, h2, h3, h4, h5, h6⟩
      | some m =>
        simp only [hpg]
        split
        · exact ⟨h1, h2, h3, h4, h5, h6⟩
        · exact wf_unload_tail _ name ⟨h1, h2, h3, h4, h5, dictNoDup_remove _ h6⟩
    · exact wf_unload_tail _ name ⟨h1, h2, h3, h4, h5, h6⟩

theorem wf_toggle (env : Json → ExtBehavior) (s : ExtensionManager) (name : Json)
    (h : s.Wf) : (ExtensionManager.toggle_extension env s name).2.Wf := by
  obtain ⟨h1, h2, h3, h4, h5, h6⟩ := h
  cases hdg : dictGet? s.extensions name with
  | none => simp only [ExtensionManager.toggle_extension, hdg]; exact ⟨h1, h2, h3, h4, h5, h6⟩
  | some ext =>
    have hname : ext.name = name :=
      of_decide_eq_true (List.all_eq_true.mp h1 _ (dictGet?_mem hdg))
    have hs1 : ExtensionManager.Wf
        { s with extensions := dictInsert s.extensions name
                   { ext with enabled := Json.bool (!ext.enabled.truthy) }
               , events := s.events ++ [Event.manifest_saved name] } := by
      refine ⟨?_, ?_, dictNoDup_insert _ _ h3, h4, h5, h6⟩
      · simp only [namesConsistent, List.all_eq_true]
        intro p hp
        rcases mem_dictInsert hp with rfl | hp'
        · simpa using hname
        · exact List.all_eq_true.mp h1 p hp'
      · simp only [loadedRegistered, List.all_eq_true]
        intro p hp
        rw [dictContains_insert]
        exact Bool.or_eq_true_iff.mpr (Or.inl (List.all_eq_true.mp h2 p hp))
    simp only [ExtensionManager.toggle_extension, hdg]
    split
    · exact wf_load env _ name hs1
    · exact wf_unload _ name hs1

theorem wf_reload (env : Json → ExtBehavior) (s : ExtensionManager) (name : Json)
    (h : s.Wf) : (ExtensionManager.reload_extension env s name).2.Wf := by
  cases hdg : dictGet? s.extensions name with
  | none => simp only [ExtensionManager.reload_extension, hdg]; exact h
  | some ext =>
    have hs1 : (if dictContains s.loaded_extensions name
        then (ExtensionManager.unload_extension s name).2 else s).Wf := by
      split
      · exact wf_unload s name h
      · exact h
    simp only [ExtensionManager.reload_extension, hdg]
    cases hdg2 : dictGet? (if dictContains s.loaded_extensions name
        then (ExtensionManager.unload_extension s name).2 else s).extensions name with
    | none => simpa [hdg2] using hs1
    | some ext2 =>
      simp only [hdg2]
      split
      · exact wf_load env _ name hs1
      · exact hs1

theorem wf_uninstall (s : ExtensionManager) (name : Json)
    (h : s.Wf) : (ExtensionManager.uninstall_extension s name).2.Wf := by
  cases hdg : dictGet? s.extensions name with
  | none => simp only [ExtensionManager.uninstall_extension, hdg]; exact h
  | some ext =>
    have hs1 : (if dictContains s.loaded_extensions name
        then (ExtensionManager.unload_extension s name).2 else s).Wf := by
      split
      · exact wf_unload s name h
      · exact h
    obtain ⟨h1, h2, h3, h4, h5, h6⟩ := hs1
    simp only [ExtensionManager.uninstall_extension, hdg]
    refine ⟨?_, ?_, dictNoDup_remove _ h3, dictNoDup_remove _ h4,
      dictNoDup_remove _ h5, dictNoDup_remove _ h6⟩
    · simp only [namesConsistent, List.all_eq_true]
      intro p hp
      exact List.all_eq_true.mp h1 p (mem_dictRemove hp)
    · simp only [loadedRegistered, List.all_eq_true]
      intro p hp
      have hpk : p.1 ≠ name := by
        intro he
        have hcp := contains_of_mem hp
        rw [he, dictContains_remove_self h4] at hcp
        exact Bool.false_ne_true hcp
      rw [dictContains_remove_ne _ hpk]
      exact List.all_eq_true.mp h2 p (mem_dictRemove hp)

theorem wf_install (env : Json → ExtBehavior) (s : ExtensionManager)
    (ext : ExtensionManifest) (h : s.Wf) :
    (ExtensionManager.install_register env s ext).2.Wf := by
  obtain ⟨h1, h2, h3, h4, h5, h6⟩ := h
  have hs1 : ExtensionManager.Wf
      { s with extensions := dictInsert s.extensions ext.name ext
             , events := s.events ++ [Event.registry_saved] } := by
    refine ⟨?_, ?_, dictNoDup_insert _ _ h3, h4, h5, h6⟩
    · simp only [namesConsistent, List.all_eq_true]
      intro p hp
      rcases mem_dictInsert hp with rfl | hp'
      · simp
      · exact List.all_eq_true.mp h1 p hp'
    · simp only [loadedRegistered, List.all_eq_true]
      intro p hp
      rw [dictContains_insert]
      exact Bool.or_eq_true_iff.mpr (Or.inl (List.all_eq_true.mp h2 p hp))
  simp only [ExtensionManager.install_register]
  split
  · exact wf_load env _ ext.name hs1
  · exact hs1

/-- C1, counterexample: `disExt` is registered in `sDis` with `enabled=false`,
yet `load_extension` returns `False` — not the success the claim states —
so "returns failure only when the name is unregistered" is false as well. -/
theorem c1_counterexample :
    dictGet? sDis.extensions (Json.str "dis") = some disExt ∧
    disExt.enabled = Json.bool false ∧
    ExtensionManager.load_extension envOk sDis (Json.str "dis") = (false, sDis) :=
  ⟨rfl, rfl, rfl⟩

/-- C1 (amended): for every registered extension whose manifest's `enabled`
flag is falsy, `load_extension` is a no-op on the whole state — in particular
the loaded-extension map is unchanged — but it returns failure (`False`), not
success; failure is therefore not reserved to unregistered names
(src/ludvigeditor.py:407-409). -/
theorem c1_disabled_noop (env : Json → ExtBehavior) (s : ExtensionManager)
    (name : Json) (ext : ExtensionManifest)
    (hr : dictGet? s.extensions name = some ext)
    (hd : ext.enabled.truthy = false) :
    ExtensionManager.load_extension env s name = (false, s) := by
  simp [ExtensionManager.load_extension, hr, hd]

/-- C1, witness: `c1_disabled_noop` applied to the concrete state `sDis`. -/
theorem c1_witness :
    dictGet? sDis.extensions (Json.str "dis") = some disExt ∧
    disExt.enabled.truthy = false ∧
    ExtensionManager.load_extension envOk sDis (Json.str "dis") = (false, sDis) :=
  ⟨rfl, rfl, c1_disabled_noop envOk sDis (Json.str "dis") disExt rfl rfl⟩

/-- C2, counterexample: `pyExt` is registered and enabled in `sPy` and its
module's `activate` raises under `envActRaises`; `load_extension` returns
`False` and does not mark the extension loaded, but — contrary to the claim —
the state (whose event trace was empty) is returned unchanged, so no
`extension_error` signal is emitted. -/
theorem c2_counterexample :
    ExtensionManager.load_extension envActRaises sPy (Json.str "pyext") = (false, sPy) ∧
    sPy.events = [] ∧
    (ExtensionManager.load_extension envActRaises sPy
      (Json.str "pyext")).2.events.filter isErrorEvent = [] ∧
    dictContains (ExtensionManager.load_extension envActRaises sPy
      (Json.str "pyext")).2.loaded_extensions (Json.str "pyext") = false :=
  ⟨rfl, rfl, rfl, rfl⟩

/-- C2 (amended): for every registered, enabled, not-yet-loaded Python
extension whose entry file exists and yields a module spec but whose
top-level execution or `activate` call raises, `load_extension` returns
`False` and leaves the entire state unchanged: the name is not added to the
loaded-extension map and no `extension_error` signal is emitted — the
exception is caught and only logged by `_load_python_extension`
(src/ludvigeditor.py:526-529), so the emitting handler in `load_extension`
(lines 424-428) never runs. -/
theorem c2_python_error_no_signal (env : Json → ExtBehavior) (s : ExtensionManager)
    (name : Json) (ext : ExtensionManifest)
    (hr : dictGet? s.extensions name = some ext)
    (he : ext.enabled.truthy = true)
    (hl : dictContains s.loaded_extensions name = false)
    (ht : ext.type = "python")
    (hm : (env ext.name).mainExists = true)
    (hsp : (env ext.name).specIsNone = false)
    (hx : (env ext.name).execRaises = true ∨
          ((env ext.name).hasActivate && (env ext.name).activateRaises) = true) :
    ExtensionManager.load_extension env s name = (false, s) := by
  have hne : ("python" : String) ≠ "js" := by decide
  simp only [ExtensionManager.load_extension, hr, he, hl, ht, hne,
    Bool.not_true, Bool.false_eq_true, if_false, if_true,
    ExtensionManager._load_python_extension, hm, hsp]
  rcases hx with hx | hx
  · simp [hx]
  · by_cases hex : (env ext.name).execRaises
    · simp [hex]
    · simp [hex, hx]

/-- C2, witness: `c2_python_error_no_signal` applied to the concrete state
`sPy` under `envActRaises`. -/
theorem c2_witness :
    dictGet? sPy.extensions (Json.str "pyext") = some pyExt ∧
    pyExt.type = "python" ∧
    ExtensionManager.load_extension envActRaises sPy (Json.str "pyext") = (false, sPy) :=
  ⟨rfl, rfl, c2_python_error_no_signal envActRaises sPy (Json.str "pyext") pyExt
    rfl rfl rfl rfl rfl rfl (Or.inr rfl)⟩

/-- C3, counterexample: in `sLoadedPy` the loaded Python extension's module
has a raising `deactivate`; `unload_extension` returns `False` and leaves the
state unchanged — the loaded record and cached module are still present and
no unload signal is emitted — contrary to the claim's "still completes". -/
theorem c3_counterexample :
    dictGet? sLoadedPy.loaded_extensions (Json.str "pyext") = some pyExt ∧
    dictGet? sLoadedPy.python_extensions (Json.str "pyext") = some behDeactRaises ∧
    (behDeactRaises.hasDeactivate && behDeactRaises.deactivateRaises) = true ∧
    ExtensionManager.unload_extension sLoadedPy (Json.str "pyext") = (false, sLoadedPy) :=
  ⟨rfl, rfl, rfl, rfl⟩

/-- C3 (amended): for every currently loaded Python extension whose cached
module's `deactivate` raises, `unload_extension` does *not* complete: the
exception is caught by the method's own `except` (src/ludvigeditor.py:568-570)
before any deletion has run, so it returns `False` and leaves the whole state
unchanged — the Loaded-Extension Record and the cached module reference are
kept and no unload signal is emitted; the error is only logged. -/
theorem c3_deactivate_raise_aborts (s : ExtensionManager) (name : Json)
    (ext : ExtensionManifest) (m : ExtBehavior)
    (hl : dictGet? s.loaded_extensions name = some ext)
    (ht : ext.type = "python")
    (hm : dictGet? s.python_extensions name = some m)
    (hd : (m.hasDeactivate && m.deactivateRaises) = true) :
    ExtensionManager.unload_extension s name = (false, s) := by
  have hne : ("python" : String) ≠ "js" := by decide
  simp [ExtensionManager.unload_extension, hl, ht, hne, hm, hd]

/-- C3, witness: `c3_deactivate_raise_aborts` applied to the concrete state
`sLoadedPy`. -/
theorem c3_witness :
    dictGet? sLoadedPy.loaded_extensions (Json.str "pyext") = some pyExt ∧
    (behDeactRaises.hasDeactivate && behDeactRaises.deactivateRaises) = true ∧
    ExtensionManager.unload_extension sLoadedPy (Json.str "pyext") = (false, sLoadedPy) :=
  ⟨rfl, rfl, c3_deactivate_raise_aborts sLoadedPy (Json.str "pyext") pyExt
    behDeactRaises rfl rfl rfl rfl⟩

theorem load_already (env : Json → ExtBehavior) (s : ExtensionManager) (name : Json)
    (ext : ExtensionManifest) (hdg : dictGet? s.extensions name = some ext)
    (hen : ext.enabled.truthy = true)
    (hld : dictContains s.loaded_extensions name = true) :
    ExtensionManager.load_extension env s name = (true, s) := by
  simp [ExtensionManager.load_extension, hdg, hen, hld]

/-- C4: `load_extension` is idempotent.  If a call on a well-keyed state (the
registration dict keys each manifest by its own name, and the loaded dict —
being a Python dict — holds the name at most once) succeeds, then the loaded
dict holds exactly one record for the name, and an immediately repeated call
returns success again with the state unchanged. -/
theorem c4_load_idempotent (env : Json → ExtBehavior) (s : ExtensionManager)
    (name : Json) (s' : ExtensionManager)
    (hnc : namesConsistent s.extensions = true)
    (hcnt : dictCount s.loaded_extensions name ≤ 1)
    (h : ExtensionManager.load_extension env s name = (true, s')) :
    ExtensionManager.load_extension env s' name = (true, s') ∧
    dictCount s'.loaded_extensions name = 1 := by
  cases hdg : dictGet? s.extensions name with
  | none => simp [ExtensionManager.load_extension, hdg] at h
  | some ext =>
    have hname : ext.name = name :=
      of_decide_eq_true (List.all_eq_true.mp hnc _ (dictGet?_mem hdg))
    simp only [ExtensionManager.load_extension, hdg] at h
    by_cases hen : ext.enabled.truthy = true
    case neg =>
      rw [Bool.eq_false_iff.mpr hen] at h
      simp at h
    rw [hen] at h
    simp only [Bool.not_true, Bool.false_eq_true, if_false] at h
    by_cases hld : dictContains s.loaded_extensions name = true
    · rw [hld] at h
      simp only [if_true, Prod.mk.injEq, true_and] at h
      subst h
      exact ⟨load_already env s name ext hdg hen hld,
        le_antisymm hcnt (dictCount_pos hld)⟩
    · have hldf : dictContains s.loaded_extensions name = false := Bool.eq_false_iff.mpr hld
      rw [hldf] at h
      simp only [Bool.false_eq_true, if_false] at h
      by_cases hjs : ext.type = "js"
      · simp only [hjs, if_true] at h
        simp only [ExtensionManager._load_js_extension] at h
        by_cases hme : (env ext.name).mainExists = true
        case neg =>
          rw [Bool.eq_false_iff.mpr hme] at h
          simp at h
        rw [hme] at h
        simp only [Bool.not_true, Bool.false_eq_true, if_false] at h
        by_cases hrr : (env ext.name).readRaises = true
        case pos => rw [hrr] at h; simp at h
        rw [Bool.eq_false_iff.mpr hrr] at h
        simp only [Bool.false_eq_true, if_false, Prod.mk.injEq, true_and] at h
        subst h
        constructor
        · refine load_already env _ name ext hdg hen ?_
          show dictContains (dictInsert s.loaded_extensions ext.name ext) name = true
          rw [hname, dictContains_insert]
          simp
        · show dictCount (dictInsert s.loaded_extensions ext.name ext) name = 1
          rw [hname, dictCount_insert_self]
          simp [hldf, dictCount_eq_zero hldf]
      · by_cases hpy : ext.type = "python"
        · rw [if_neg hjs, if_pos hpy] at h
          simp only [ExtensionManager._load_python_extension] at h
          by_cases hme : (env ext.name).mainExists = true
          case neg =>
            rw [Bool.eq_false_iff.mpr hme] at h
            simp at h
          rw [hme] at h
          simp only [Bool.not_true, Bool.false_eq_true, if_false] at h
          by_cases hsn : (env ext.name).specIsNone = true
          case pos => rw [hsn] at h; simp at h
          rw [Bool.eq_false_iff.mpr hsn] at h
          simp only [Bool.false_eq_true, if_false] at h
          by_cases hex : (env ext.name).execRaises = true
          case pos => rw [hex] at h; simp at h
          rw [Bool.eq_false_iff.mpr hex] at h
          simp only [Bool.false_eq_true, if_false] at h
          by_cases hac : ((env ext.name).hasActivate && (env ext.name).activateRaises) = true
          case pos => rw [hac] at h; simp at h
          rw [Bool.eq_false_iff.mpr hac] at h
          simp only [Bool.false_eq_true, if_false, Prod.mk.injEq, true_and] at h
          subst h
          constructor
          · refine load_already env _ name ext hdg hen ?_
            show dictContains (dictInsert s.loaded_extensions ext.name ext) name = true
            rw [hname, dictContains_insert]
            simp
          · show dictCount (dictInsert s.loaded_extensions ext.name ext) name = 1
            rw [hname, dictCount_insert_self]
            simp [hldf, dictCount_eq_zero hldf]
        · simp [hjs, hpy] at h

/-- C4, witness: loading `jsExt` in the concrete state `sJs` succeeds, and the
repeated call returns success on the unchanged result state, which holds
exactly one loaded record. -/
theorem c4_witness :
    namesConsistent sJs.extensions = true ∧
    dictCount sJs.loaded_extensions (Json.str "hello") ≤ 1 ∧
    ExtensionManager.load_extension envOk sJs (Json.str "hello") = (true, sJsLoaded) ∧
    (ExtensionManager.load_extension envOk sJsLoaded (Json.str "hello") = (true, sJsLoaded) ∧
     dictCount sJsLoaded.loaded_extensions (Json.str "hello") = 1) :=
  ⟨rfl, by decide, rfl,
    c4_load_idempotent envOk sJs (Json.str "hello") sJsLoaded rfl (by decide) rfl⟩

/-- C5: `toggle_extension` on a registered name flips the manifest's
`enabled` flag and persists it (the `manifest_saved` event precedes everything
the follow-up emits), then runs `load_extension` when newly enabled or
`unload_extension` when newly disabled and returns that follow-up's result;
the registration dict keeps the flipped flag whatever the follow-up returns
(no rollback), so — as the third conjunct shows on a concrete failing load —
`enabled=true` with `loaded=false` is reachable. -/
theorem c5_toggle_persists (env : Json → ExtBehavior) (s : ExtensionManager)
    (name : Json) (ext : ExtensionManifest)
    (hr : dictGet? s.extensions name = some ext) :
    (ExtensionManager.toggle_extension env s name =
      (if !ext.enabled.truthy then
        ExtensionManager.load_extension env
          { s with extensions := dictInsert s.extensions name
                     { ext with enabled := Json.bool (!ext.enabled.truthy) }
                 , events := s.events ++ [Event.manifest_saved name] } name
       else
        ExtensionManager.unload_extension
          { s with extensions := dictInsert s.extensions name
                     { ext with enabled := Json.bool (!ext.enabled.truthy) }
                 , events := s.events ++ [Event.manifest_saved name] } name)) ∧
    ((ExtensionManager.toggle_extension env s name).2.extensions =
      dictInsert s.extensions name
        { ext with enabled := Json.bool (!ext.enabled.truthy) }) ∧
    ((ExtensionManager.toggle_extension envActRaises sPyDis (Json.str "pyext")).1 = false ∧
     (dictGet? (ExtensionManager.toggle_extension envActRaises sPyDis
        (Json.str "pyext")).2.extensions (Json.str "pyext")).map
          (fun e => e.enabled.truthy) = some true ∧
     dictContains (ExtensionManager.toggle_extension envActRaises sPyDis
        (Json.str "pyext")).2.loaded_extensions (Json.str "pyext") = false) := by
  refine ⟨?_, ?_, rfl, rfl, rfl⟩
  · simp only [ExtensionManager.toggle_extension, hr, Json.truthy]
  · simp only [ExtensionManager.toggle_extension, hr]
    split
    · rw [load_extensions_eq]
    · rw [unload_extensions_eq]

/-- C5, witness: `c5_toggle_persists` applied to the concrete state `sPyDis`
(registered, disabled Python extension whose `activate` raises on load). -/
theorem c5_witness :
    dictGet? sPyDis.extensions (Json.str "pyext") = some pyExtDis ∧
    ((ExtensionManager.toggle_extension envActRaises sPyDis (Json.str "pyext")).2.extensions =
      dictInsert sPyDis.extensions (Json.str "pyext")
        { pyExtDis with enabled := Json.bool (!pyExtDis.enabled.truthy) }) :=
  ⟨rfl, (c5_toggle_persists envActRaises sPyDis (Json.str "pyext") pyExtDis rfl).2.1⟩

theorem entryName_to_dict (m : ExtensionManifest) (rest : List (String × Json)) :
    entryName (Json.obj (m.to_dict ++ rest)) = some m.name := rfl

theorem map_congr_mem {α β : Type} {l : List α} {f g : α → β}
    (h : ∀ a ∈ l, f a = g a) : l.map f = l.map g := by
  induction l with
  | nil => rfl
  | cons a l ih =>
    simp only [List.map_cons, h a (List.mem_cons_self a l)]
    rw [ih (fun x hx => h x (List.mem_cons_of_mem a hx))]

theorem uninstall_absent_helper (t : ExtensionManager) (name : Json)
    (h1 : namesConsistent t.extensions = true) (h3 : dictNoDup t.extensions = true)
    (l : List Json)
    (hl : ExtensionManager.get_extension_list
      { t with extensions := dictRemove t.extensions name
             , loaded_extensions := dictRemove t.loaded_extensions name
             , js_extensions := dictRemove t.js_extensions name
             , python_extensions := dictRemove t.python_extensions name
             , events := t.events ++ [Event.registry_saved,
                                      Event.extension_uninstalled name] } = some l) :
    ∀ e ∈ l, entryName e ≠ some name := by
  simp only [ExtensionManager.get_extension_list] at hl
  split at hl
  case isFalse => exact absurd hl (by simp)
  case isTrue hall =>
    obtain rfl : _ = l := Option.some.inj hl
    intro e hel
    have hmem := (List.perm_insertionSort
      (fun a b => charListLe (entrySortKeyD a) (entrySortKeyD b) = true) _).mem_iff.mp hel
    obtain ⟨p, hp, rfl⟩ := List.mem_map.mp hmem
    rw [entryName_to_dict]
    intro heq
    have hpn : p.2.name = name := Option.some.inj heq
    have hk : p.2.name = p.1 :=
      of_decide_eq_true (List.all_eq_true.mp h1 p (mem_dictRemove hp))
    have hck := contains_of_mem hp
    rw [← hk, hpn, dictContains_remove_self h3] at hck
    exact Bool.false_ne_true hck

/-- C6: `uninstall_extension` returns `False` and changes nothing when the
name is unregistered; on a registered name of a well-formed state it first
runs `unload_extension` if the name is loaded, then removes the registration,
the loaded record, the cached JS source and the cached Python module, appends
the registry write and the `extension_uninstalled` signal, returns `True`,
and afterwards no entry of `get_extension_list` carries that name. -/
theorem c6_uninstall (s : ExtensionManager) (name : Json) (hw : s.Wf) :
    (dictGet? s.extensions name = none →
      ExtensionManager.uninstall_extension s name = (false, s)) ∧
    (dictContains s.extensions name = true →
      (ExtensionManager.uninstall_extension s name).1 = true ∧
      (∃ s1, s1 = (if dictContains s.loaded_extensions name
                   then (ExtensionManager.unload_extension s name).2 else s) ∧
        ExtensionManager.uninstall_extension s name =
          (true, { s1 with extensions := dictRemove s1.extensions name
                         , loaded_extensions := dictRemove s1.loaded_extensions name
                         , js_extensions := dictRemove s1.js_extensions name
                         , python_extensions := dictRemove s1.python_extensions name
                         , events := s1.events ++ [Event.registry_saved,
                                                   Event.extension_uninstalled name] })) ∧
      dictContains (ExtensionManager.uninstall_extension s name).2.extensions name = false ∧
      dictContains (ExtensionManager.uninstall_extension s name).2.loaded_extensions name = false ∧
      dictContains (ExtensionManager.uninstall_extension s name).2.js_extensions name = false ∧
      dictContains (ExtensionManager.uninstall_extension s name).2.python_extensions name = false ∧
      (∀ l, ExtensionManager.get_extension_list
          (ExtensionManager.uninstall_extension s name).2 = some l →
        ∀ e ∈ l, entryName e ≠ some name)) := by
  constructor
  · intro h
    simp [ExtensionManager.uninstall_extension, h]
  · intro hc
    obtain ⟨ext, hdg⟩ : ∃ ext, dictGet? s.extensions name = some ext := by
      cases hg : dictGet? s.extensions name with
      | none => rw [dictContains, hg] at hc; simp at hc
      | some ext => exact ⟨ext, rfl⟩
    have hwf1 : (if dictContains s.loaded_extensions name
        then (ExtensionManager.unload_extension s name).2 else s).Wf := by
      split
      · exact wf_unload s name hw
      · exact hw
    obtain ⟨h1, h2, h3, h4, h5, h6⟩ := hwf1
    have hr : ExtensionManager.uninstall_extension s name =
        (true, { (if dictContains s.loaded_extensions name
                  then (ExtensionManager.unload_extension s name).2 else s) with
                 extensions := dictRemove (if dictContains s.loaded_extensions name
                   then (ExtensionManager.unload_extension s name).2 else s).extensions name
               , loaded_extensions := dictRemove (if dictContains s.loaded_extensions name
                   then (ExtensionManager.unload_extension s name).2 else s).loaded_extensions name
               , js_extensions := dictRemove (if dictContains s.loaded_extensions name
                   then (ExtensionManager.unload_extension s name).2 else s).js_extensions name
               , python_extensions := dictRemove (if dictContains s.loaded_extensions name
                   then (ExtensionManager.unload_extension s name).2 else s).python_extensions name
               , events := (if dictContains s.loaded_extensions name
                   then (ExtensionManager.unload_extension s name).2 else s).events ++
                     [Event.registry_saved, Event.extension_uninstalled name] }) := by
      simp only [ExtensionManager.uninstall_extension, hdg]
    refine ⟨by rw [hr], ⟨_, rfl, hr⟩, ?_, ?_, ?_, ?_, ?_⟩
    · rw [hr]
      exact dictContains_remove_self h3
    · rw [hr]
      exact dictContains_remove_self h4
    · rw [hr]
      exact dictContains_remove_self h5
    · rw [hr]
      exact dictContains_remove_self h6
    · intro l hl
      rw [hr] at hl
      exact uninstall_absent_helper
        (if dictContains s.loaded_extensions name
         then (ExtensionManager.unload_extension s name).2 else s)
        name h1 h3 l hl

/-- C6, witness: `c6_uninstall` applied to the concrete state `sLoadedPy`;
uninstalling the registered, loaded extension succeeds and deregisters it. -/
theorem c6_witness :
    sLoadedPy.Wf ∧
    dictContains sLoadedPy.extensions (Json.str "pyext") = true ∧
    ((ExtensionManager.uninstall_extension sLoadedPy (Json.str "pyext")).1 = true ∧
     dictContains (ExtensionManager.uninstall_extension sLoadedPy
       (Json.str "pyext")).2.extensions (Json.str "pyext") = false) :=
  ⟨by decide, rfl,
    ((c6_uninstall sLoadedPy (Json.str "pyext") (by decide)).2 rfl).1,
    ((c6_uninstall sLoadedPy (Json.str "pyext") (by decide)).2 rfl).2.2.1⟩

/-- C7: when reading or parsing the manifest file fails,
`ExtensionManifest.load` does not raise and yields exactly the all-defaults
manifest: `name='unknown'`, `version='1.0.0'`, empty description, author
`'Unknown'`, `main='main.js'`, no icon, `enabled=True`, and empty
dependencies, contributes and activationEvents (with derived kind `js`). -/
theorem c7_manifest_defaults :
    ExtensionManifest.load none = some
      { name := Json.str "unknown", version := Json.str "1.0.0",
        description := Json.str "", author := Json.str "Unknown",
        main := Json.str "main.js", icon := Json.null, enabled := Json.bool true,
        dependencies := Json.obj [], contributes := Json.obj [],
        activation_events := Json.arr [], type := "js" } := rfl

/-- C8: for every manifest whose `main` field is a string — the only shape a
constructed `ExtensionManifest` can have, since construction raises on any
other — `save` followed by `load` of the written document succeeds and agrees
with the original on all ten modeled fields. -/
theorem c8_save_load_round_trip (m : ExtensionManifest) (ms : String)
    (hm : m.main = Json.str ms) :
    ∃ m2, ExtensionManifest.load (some (ExtensionManifest.save m)) = some m2 ∧
      m2.name = m.name ∧ m2.version = m.version ∧ m2.description = m.description ∧
      m2.author = m.author ∧ m2.main = m.main ∧ m2.icon = m.icon ∧
      m2.enabled = m.enabled ∧ m2.dependencies = m.dependencies ∧
      m2.contributes = m.contributes ∧
      m2.activation_events = m.activation_events := by
  obtain ⟨name, version, description, author, main, icon, enabled,
    dependencies, contributes, activation_events, ty⟩ := m
  simp only at hm
  subst hm
  exact ⟨{ name := name, version := version, description := description,
           author := author, main := Json.str ms, icon := icon,
           enabled := enabled, dependencies := dependencies,
           contributes := contributes, activation_events := activation_events,
           type := if pyEndsWith ms ".js" then "js"
                   else if pyEndsWith ms ".py" then "python"
                   else "unknown" },
    rfl, rfl, rfl, rfl, rfl, rfl, rfl, rfl, rfl, rfl, rfl⟩

/-- C8, witness: `c8_save_load_round_trip` applied to the concrete manifest
`jsExt`. -/
theorem c8_witness :
    jsExt.main = Json.str "hello.js" ∧
    (∃ m2, ExtensionManifest.load (some (ExtensionManifest.save jsExt)) = some m2 ∧
      m2.name = jsExt.name ∧ m2.version = jsExt.version ∧
      m2.description = jsExt.description ∧ m2.author = jsExt.author ∧
      m2.main = jsExt.main ∧ m2.icon = jsExt.icon ∧ m2.enabled = jsExt.enabled ∧
      m2.dependencies = jsExt.dependencies ∧ m2.contributes = jsExt.contributes ∧
      m2.activation_events = jsExt.activation_events) :=
  ⟨rfl, c8_save_load_round_trip jsExt "hello.js" rfl⟩

/-- C9: on a state whose registration dict keys each manifest by its own
name, `get_extension_list` succeeds with a permutation of one entry per
registered extension — each entry being the manifest's `to_dict` plus a
`loaded` flag that is true exactly when that name is a key of the
loaded-extension dict and a constant `has_errors` — sorted ascending by the
lowercased extension name. -/
theorem c9_extension_list (s : ExtensionManager) (l : List Json)
    (hnc : namesConsistent s.extensions = true)
    (h : ExtensionManager.get_extension_list s = some l) :
    l.Perm (s.extensions.map (fun p => Json.obj (p.2.to_dict ++
      [("loaded", Json.bool (dictContains s.loaded_extensions p.2.name)),
       ("has_errors", Json.bool false)]))) ∧
    List.Sorted (fun a b => charListLe (entrySortKeyD a) (entrySortKeyD b) = true) l := by
  simp only [ExtensionManager.get_extension_list] at h
  split at h
  case isFalse => exact absurd h (by simp)
  case isTrue hall =>
    obtain rfl : _ = l := Option.some.inj h
    constructor
    · have hmaps : s.extensions.map (fun p => Json.obj (p.2.to_dict ++
          [("loaded", Json.bool (dictContains s.loaded_extensions p.2.name)),
           ("has_errors", Json.bool false)])) =
        s.extensions.map (fun p => Json.obj (p.2.to_dict ++
          [("loaded", Json.bool (dictContains s.loaded_extensions p.1)),
           ("has_errors", Json.bool false)])) := by
        refine map_congr_mem (fun p hp => ?_)
        rw [of_decide_eq_true (List.all_eq_true.mp hnc p hp)]
      rw [hmaps]
      exact List.perm_insertionSort _ _
    · exact List.sorted_insertionSort _ _

/-- C9, witness: `c9_extension_list` applied to the concrete state `sTwo`,
whose registration order (`Beta` before `alpha`) differs from the sorted
order of the produced list. -/
theorem c9_witness :
    namesConsistent sTwo.extensions = true ∧
    ExtensionManager.get_extension_list sTwo = some
      [Json.obj (alphaExt.to_dict ++ [("loaded", Json.bool true),
         ("has_errors", Json.bool false)]),
       Json.obj (betaExt.to_dict ++ [("loaded", Json.bool false),
         ("has_errors", Json.bool false)])] ∧
    ([Json.obj (alphaExt.to_dict ++ [("loaded", Json.bool true),
        ("has_errors", Json.bool false)]),
      Json.obj (betaExt.to_dict ++ [("loaded", Json.bool false),
        ("has_errors", Json.bool false)])].Perm
      (sTwo.extensions.map (fun p => Json.obj (p.2.to_dict ++
        [("loaded", Json.bool (dictContains sTwo.loaded_extensions p.2.name)),
         ("has_errors", Json.bool false)]))) ∧
     List.Sorted (fun a b => charListLe (entrySortKeyD a) (entrySortKeyD b) = true)
       [Json.obj (alphaExt.to_dict ++ [("loaded", Json.bool true),
          ("has_errors", Json.bool false)]),
        Json.obj (betaExt.to_dict ++ [("loaded", Json.bool false),
          ("has_errors", Json.bool false)])]) :=
  ⟨rfl, rfl, c9_extension_list sTwo _ rfl rfl⟩

/-- C10: every lifecycle operation — `load_extension`, `unload_extension`,
`toggle_extension`, `reload_extension`, `uninstall_extension`, and the shared
registration step of the three installers — preserves full well-formedness,
whose `loadedRegistered` component is the claim's invariant: every key of
the loaded-extension dict is a key of the registration dict, so no extension
is ever loaded without being registered. -/
theorem c10_invariant (env : Json → ExtBehavior) (s : ExtensionManager)
    (name : Json) (ext : ExtensionManifest) (h : s.Wf) :
    ((ExtensionManager.load_extension env s name).2.Wf ∧
     loadedRegistered (ExtensionManager.load_extension env s name).2 = true) ∧
    ((ExtensionManager.unload_extension s name).2.Wf ∧
     loadedRegistered (ExtensionManager.unload_extension s name).2 = true) ∧
    ((ExtensionManager.toggle_extension env s name).2.Wf ∧
     loadedRegistered (ExtensionManager.toggle_extension env s name).2 = true) ∧
    ((ExtensionManager.reload_extension env s name).2.Wf ∧
     loadedRegistered (ExtensionManager.reload_extension env s name).2 = true) ∧
    ((ExtensionManager.uninstall_extension s name).2.Wf ∧
     loadedRegistered (ExtensionManager.uninstall_extension s name).2 = true) ∧
    ((ExtensionManager.install_register env s ext).2.Wf ∧
     loadedRegistered (ExtensionManager.install_register env s ext).2 = true) :=
  ⟨⟨wf_load env s name h, (wf_load env s name h).2.1⟩,
   ⟨wf_unload s name h, (wf_unload s name h).2.1⟩,
   ⟨wf_toggle env s name h, (wf_toggle env s name h).2.1⟩,
   ⟨wf_reload env s name h, (wf_reload env s name h).2.1⟩,
   ⟨wf_uninstall s name h, (wf_uninstall s name h).2.1⟩,
   ⟨wf_install env s ext h, (wf_install env s ext h).2.1⟩⟩

/-- C10, witness: `c10_invariant` applied to the concrete well-formed state
`sLoadedPy`, with `jsExt` as the manifest being installed. -/
theorem c10_witness :
    sLoadedPy.Wf ∧
    loadedRegistered (ExtensionManager.load_extension envOk sLoadedPy
      (Json.str "pyext")).2 = true ∧
    loadedRegistered (ExtensionManager.uninstall_extension sLoadedPy
      (Json.str "pyext")).2 = true :=
  ⟨by decide,
   (c10_invariant envOk sLoadedPy (Json.str "pyext") jsExt (by decide)).1.2,
   (c10_invariant envOk sLoadedPy (Json.str "pyext") jsExt (by decide)).2.2.2.2.1.2⟩
